import Mathlib

/-!
Verification development for the Ca2-Sandbox calcium-imaging analysis tool.

The repository ships a Vue/TypeScript frontend (`src/frontend`); the Python
analysis core (`ca2roi`: bleaching fit, fluctuation map, auto-ROI detection,
trace extraction) is referenced by the README and the frontend's HTTP calls
but its code is not part of the source tree we verify.  Frontend behaviour
(`useROIOperations.ts`, `VideoDisplay.vue`, `VideoCanvas.vue`) is embedded
directly from the source; backend behaviour is modelled from the spec and
each such definition is marked `Modelled from the spec:`.

Numbers are embedded as rationals (`ℚ`); JavaScript numeric ids as `ℕ`.
-/

/-- Rectangle coordinates `(x0, y0, x1, y1)` in frame pixel space, as in the
frontend `Coords` type / `[number, number, number, number]` tuples. -/
structure Coords where
  x0 : ℚ
  y0 : ℚ
  x1 : ℚ
  y1 : ℚ
deriving DecidableEq, Repr

/-- Frontend `ROI` record (`types.ts`): id, name, color, coords, selected
flag, cached intensity trace and time points. -/
structure ROI where
  id : ℕ
  name : String
  color : String
  coords : Coords
  selected : Bool
  intensityTrace : List ℚ
  timePoints : List ℚ
deriving DecidableEq, Repr

/-- The eight ROI display colors from `useROIOperations.ts`. -/
def roiColors : List String :=
  ["#FF6B6B", "#4ECDC4", "#45B7D1", "#96CEB4", "#FFEAA7", "#DDA0DD", "#98D8C8", "#F7DC6F"]

/-- Body of the backend reply to `/api/get-roi-traces` used by `createROI`
(`useROIOperations.ts`, first variant). -/
structure BackendTrace where
  intensity_trace : List ℚ
  time_points : List ℚ
deriving DecidableEq, Repr

/-- Mutable state of the ROI composable (`useROIOperations.ts`, first
variant): `availableROIs`, `selectedROIs` and the `nextRoiId` counter. -/
structure SessionState where
  availableROIs : List ROI
  selectedROIs : List ℕ
  nextRoiId : ℕ
deriving DecidableEq, Repr

/-- Initial composable state: empty registry, empty selection, counter 1. -/
def initialSession : SessionState :=
  { availableROIs := [], selectedROIs := [], nextRoiId := 1 }

/-- The ROI record literal built inside `createROI` (first variant): id from
the counter, numbered name, color cycling through `roiColors`, selected by
default, trace and time points from the backend reply. -/
def mkROI (s : SessionState) (coords : Coords) (result : BackendTrace) : ROI :=
  { id := s.nextRoiId
    name := "ROI " ++ toString s.nextRoiId
    color := roiColors.getD ((s.nextRoiId - 1) % roiColors.length) ""
    coords := coords
    selected := true
    intensityTrace := result.intensity_trace
    timePoints := result.time_points }

/-- `createROI` from `useROIOperations.ts` (first variant, lines 23–52).
The id is taken from `nextRoiId` and the counter incremented before the
backend call; `backend = none` models the backend call failing (the `catch`
branch registers nothing).  On success the new ROI is pushed with
`selected := true` and its id appended to `selectedROIs` if absent. -/
def createROI (s : SessionState) (coords : Coords) (backend : Option BackendTrace) :
    SessionState × Option ROI :=
  let s1 : SessionState := { s with nextRoiId := s.nextRoiId + 1 }
  match backend with
  | none => (s1, none)
  | some result =>
    let newROI : ROI := mkROI s coords result
    let s2 : SessionState := { s1 with availableROIs := s1.availableROIs ++ [newROI] }
    let s3 : SessionState :=
      if newROI.selected && !(s2.selectedROIs.contains newROI.id)
      then { s2 with selectedROIs := s2.selectedROIs ++ [newROI.id] }
      else s2
    (s3, some newROI)

/-- `selectROI`/`unselectROI` update the `selected` flag of the first ROI in
the list whose id matches (`findIndex` followed by an index update in the
source); other entries are untouched. -/
def updateSelectedFlag (rois : List ROI) (roiId : ℕ) (b : Bool) : List ROI :=
  match rois with
  | [] => []
  | r :: rest =>
    if r.id = roiId then { r with selected := b } :: rest
    else r :: updateSelectedFlag rest roiId b

/-- `selectROI` from `useROIOperations.ts` (first variant). -/
def selectROI (s : SessionState) (roiId : ℕ) : SessionState :=
  { s with availableROIs := updateSelectedFlag s.availableROIs roiId true }

/-- `unselectROI` from `useROIOperations.ts` (first variant). -/
def unselectROI (s : SessionState) (roiId : ℕ) : SessionState :=
  { s with availableROIs := updateSelectedFlag s.availableROIs roiId false }

/-- Modelled from the spec: `removeROI(id)` (§4.5) — the frontend source has
no per-ROI removal operation, only the wholesale `clearROIs`; per the spec
an ROI is "deleted explicitly" from the registry and the scenario in §8
shows the id counter is unaffected by removal. -/
def removeROI (s : SessionState) (roiId : ℕ) : SessionState :=
  { s with availableROIs := s.availableROIs.filter (fun r => r.id != roiId),
           selectedROIs := s.selectedROIs.filter (fun i => i != roiId) }

/-- `clearROIs` from `useROIOperations.ts` (first variant, lines 101–104):
empties the registry and resets the id counter to 1 (a fresh session). -/
def clearROIs (s : SessionState) : SessionState :=
  { s with availableROIs := [], nextRoiId := 1 }

/-- One user-level ROI operation inside a single session (no `clearROIs`:
that starts a new session). -/
inductive SessionOp where
  | create (coords : Coords) (backend : Option BackendTrace)
  | remove (roiId : ℕ)
  | select (roiId : ℕ)
  | unselect (roiId : ℕ)
deriving DecidableEq, Repr

/-- Apply one operation to the session state. -/
def applyOp (s : SessionState) (op : SessionOp) : SessionState :=
  match op with
  | .create c b => (createROI s c b).1
  | .remove i => removeROI s i
  | .select i => selectROI s i
  | .unselect i => unselectROI s i

/-- Run a sequence of operations. -/
def runOps (s : SessionState) (ops : List SessionOp) : SessionState :=
  ops.foldl applyOp s

/-- The ids handed out by the `create` operations of a run, in order. -/
def assignedIds (s : SessionState) (ops : List SessionOp) : List ℕ :=
  match ops with
  | [] => []
  | op :: rest =>
    match op with
    | .create _ _ => s.nextRoiId :: assignedIds (applyOp s op) rest
    | _ => assignedIds (applyOp s op) rest

/-- Session invariant: registered ids are distinct and all below the
counter. -/
def SessionInv (s : SessionState) : Prop :=
  (s.availableROIs.map ROI.id).Nodup ∧ ∀ r ∈ s.availableROIs, r.id < s.nextRoiId

theorem updateSelectedFlag_map_id (rois : List ROI) (roiId : ℕ) (b : Bool) :
    (updateSelectedFlag rois roiId b).map ROI.id = rois.map ROI.id := by
  induction rois with
  | nil => rfl
  | cons r rest ih =>
    by_cases h : r.id = roiId <;> simp [updateSelectedFlag, h, ih]

theorem createROI_fst_nextRoiId (s : SessionState) (c : Coords) (b : Option BackendTrace) :
    (createROI s c b).1.nextRoiId = s.nextRoiId + 1 := by
  cases b with
  | none => rfl
  | some res => simp only [createROI]; split <;> rfl

theorem createROI_none_avail (s : SessionState) (c : Coords) :
    (createROI s c none).1.availableROIs = s.availableROIs := rfl

theorem createROI_some_avail (s : SessionState) (c : Coords) (res : BackendTrace) :
    (createROI s c (some res)).1.availableROIs = s.availableROIs ++ [mkROI s c res] := by
  simp only [createROI]; split <;> rfl

theorem createROI_some_snd (s : SessionState) (c : Coords) (res : BackendTrace) :
    (createROI s c (some res)).2 = some (mkROI s c res) := rfl

theorem applyOp_nextRoiId_le (s : SessionState) (op : SessionOp) :
    s.nextRoiId ≤ (applyOp s op).nextRoiId := by
  cases op with
  | create c b => simp [applyOp, createROI_fst_nextRoiId]
  | remove i => simp [applyOp, removeROI]
  | select i => simp [applyOp, selectROI]
  | unselect i => simp [applyOp, unselectROI]

theorem mem_updateSelectedFlag_id (rois : List ROI) (roiId : ℕ) (b : Bool) :
    ∀ r ∈ updateSelectedFlag rois roiId b, ∃ r0 ∈ rois, r.id = r0.id := by
  intro r hr
  have h1 : r.id ∈ (updateSelectedFlag rois roiId b).map ROI.id :=
    List.mem_map_of_mem ROI.id hr
  rw [updateSelectedFlag_map_id] at h1
  rcases List.mem_map.mp h1 with ⟨r0, hr0, hid⟩
  exact ⟨r0, hr0, hid.symm⟩

theorem applyOp_preserves_inv (s : SessionState) (op : SessionOp)
    (h : SessionInv s) : SessionInv (applyOp s op) := by
  obtain ⟨hnd, hlt⟩ := h
  cases op with
  | create c b =>
    cases b with
    | none =>
      refine ⟨by simpa [applyOp, createROI_none_avail] using hnd, ?_⟩
      intro r hr
      have hr2 : r ∈ s.availableROIs := by
        simpa [applyOp, createROI_none_avail] using hr
      have := hlt r hr2
      simp only [applyOp, createROI_fst_nextRoiId]
      omega
    | some res =>
      constructor
      · simp only [applyOp, createROI_some_avail, List.map_append, List.map_cons,
          List.map_nil]
        rw [List.nodup_append]
        refine ⟨hnd, List.nodup_singleton _, ?_⟩
        intro a ha
        rcases List.mem_map.mp ha with ⟨r, hr, hrid⟩
        have := hlt r hr
        simp only [List.mem_singleton, mkROI]
        omega
      · intro r hr
        rw [applyOp, createROI_some_avail] at hr
        simp only [List.mem_append, List.mem_singleton] at hr
        simp only [applyOp, createROI_fst_nextRoiId]
        rcases hr with hr | hr
        · have := hlt r hr; omega
        · subst hr; simp [mkROI]
  | remove i =>
    constructor
    · simp only [applyOp, removeROI]
      exact hnd.sublist ((List.filter_sublist _).map ROI.id)
    · intro r hr
      simp only [applyOp, removeROI] at hr ⊢
      exact hlt r (List.mem_of_mem_filter hr)
  | select i =>
    constructor
    · simpa only [applyOp, selectROI, updateSelectedFlag_map_id] using hnd
    · intro r hr
      simp only [applyOp, selectROI] at hr ⊢
      rcases mem_updateSelectedFlag_id _ _ _ r hr with ⟨r0, hr0, hid⟩
      rw [hid]; exact hlt r0 hr0
  | unselect i =>
    constructor
    · simpa only [applyOp, unselectROI, updateSelectedFlag_map_id] using hnd
    · intro r hr
      simp only [applyOp, unselectROI] at hr ⊢
      rcases mem_updateSelectedFlag_id _ _ _ r hr with ⟨r0, hr0, hid⟩
      rw [hid]; exact hlt r0 hr0

theorem runOps_preserves_inv (ops : List SessionOp) (s : SessionState)
    (h : SessionInv s) : SessionInv (runOps s ops) := by
  induction ops generalizing s with
  | nil => simpa [runOps] using h
  | cons op rest ih =>
    have : runOps s (op :: rest) = runOps (applyOp s op) rest := rfl
    rw [this]
    exact ih _ (applyOp_preserves_inv s op h)

theorem initial_inv : SessionInv initialSession := by
  constructor <;> simp [initialSession]

theorem assignedIds_lower_bound (ops : List SessionOp) (s : SessionState) :
    ∀ i ∈ assignedIds s ops, s.nextRoiId ≤ i := by
  induction ops generalizing s with
  | nil => intro i h; simp [assignedIds] at h
  | cons op rest ih =>
    intro i h
    cases op with
    | create c b =>
      simp only [assignedIds, List.mem_cons] at h
      rcases h with h | h
      · omega
      · have h1 := ih (applyOp s (.create c b)) i h
        have h3 : (applyOp s (.create c b)).nextRoiId = s.nextRoiId + 1 :=
          createROI_fst_nextRoiId s c b
        omega
    | remove j =>
      have h1 := ih (applyOp s (.remove j)) i (by simpa [assignedIds] using h)
      have h2 := applyOp_nextRoiId_le s (.remove j)
      omega
    | select j =>
      have h1 := ih (applyOp s (.select j)) i (by simpa [assignedIds] using h)
      have h2 := applyOp_nextRoiId_le s (.select j)
      omega
    | unselect j =>
      have h1 := ih (applyOp s (.unselect j)) i (by simpa [assignedIds] using h)
      have h2 := applyOp_nextRoiId_le s (.unselect j)
      omega

theorem assignedIds_nodup (ops : List SessionOp) (s : SessionState) :
    (assignedIds s ops).Nodup := by
  induction ops generalizing s with
  | nil => simp [assignedIds]
  | cons op rest ih =>
    cases op with
    | create c b =>
      simp only [assignedIds, List.nodup_cons]
      refine ⟨?_, ih _⟩
      intro hmem
      have h1 := assignedIds_lower_bound rest (applyOp s (.create c b)) _ hmem
      have h3 : (applyOp s (.create c b)).nextRoiId = s.nextRoiId + 1 :=
        createROI_fst_nextRoiId s c b
      omega
    | remove j => simpa [assignedIds] using ih (applyOp s (.remove j))
    | select j => simpa [assignedIds] using ih (applyOp s (.select j))
    | unselect j => simpa [assignedIds] using ih (applyOp s (.unselect j))

/-- A concrete trivial backend reply, used in scenario computations. -/
def okTrace : BackendTrace := { intensity_trace := [], time_points := [] }

/-- A concrete rectangle, used in scenario computations. -/
def someCoords : Coords := { x0 := 0, y0 := 0, x1 := 20, y1 := 20 }

/-- The id-assignment scenario of §8: three creations, then remove id 2,
then one more creation. -/
def scenarioOps3 : List SessionOp :=
  [.create someCoords (some okTrace), .create someCoords (some okTrace),
   .create someCoords (some okTrace)]

def scenarioOps5 : List SessionOp :=
  scenarioOps3 ++ [.remove 2, .create someCoords (some okTrace)]

/-- C1: ROI ids are unique and never reused within a session: over every
sequence of in-session operations (create with success or failure, remove,
select, unselect) starting from the initial state, the registered ROIs have
pairwise-distinct ids and the ids handed out by `createROI` are
pairwise-distinct (never reassigned); concretely, three sequential creations
yield ids `[1, 2, 3]`, and after removing id 2 the next creation receives
id 4, leaving registry ids `[1, 3, 4]`. -/
theorem roi_ids_unique_never_reused :
    (∀ ops : List SessionOp,
      ((runOps initialSession ops).availableROIs.map ROI.id).Nodup ∧
      (assignedIds initialSession ops).Nodup) ∧
    ((runOps initialSession scenarioOps3).availableROIs.map ROI.id = [1, 2, 3] ∧
     (runOps initialSession scenarioOps5).availableROIs.map ROI.id = [1, 3, 4]) := by
  refine ⟨fun ops => ⟨(runOps_preserves_inv ops initialSession initial_inv).1,
    assignedIds_nodup ops initialSession⟩, by decide, by decide⟩

theorem runOps_nextRoiId_le (ops : List SessionOp) (s : SessionState) :
    s.nextRoiId ≤ (runOps s ops).nextRoiId := by
  induction ops generalizing s with
  | nil => simp [runOps]
  | cons op rest ih =>
    have h1 := applyOp_nextRoiId_le s op
    have h2 := ih (applyOp s op)
    have hrun : runOps s (op :: rest) = runOps (applyOp s op) rest := rfl
    rw [hrun]
    omega

theorem assignedIds_upper_bound (ops : List SessionOp) (s : SessionState) :
    ∀ i ∈ assignedIds s ops, i < (runOps s ops).nextRoiId := by
  induction ops generalizing s with
  | nil => intro i h; simp [assignedIds] at h
  | cons op rest ih =>
    intro i h
    have hrun : runOps s (op :: rest) = runOps (applyOp s op) rest := rfl
    cases op with
    | create c b =>
      simp only [assignedIds, List.mem_cons] at h
      have h3 : (applyOp s (.create c b)).nextRoiId = s.nextRoiId + 1 :=
        createROI_fst_nextRoiId s c b
      rcases h with h | h
      · have := runOps_nextRoiId_le rest (applyOp s (.create c b))
        rw [hrun]
        omega
      · rw [hrun]; exact ih (applyOp s (.create c b)) i h
    | remove j => rw [hrun]; exact ih _ i (by simpa [assignedIds] using h)
    | select j => rw [hrun]; exact ih _ i (by simpa [assignedIds] using h)
    | unselect j => rw [hrun]; exact ih _ i (by simpa [assignedIds] using h)

/-- Frontend `ROI` record as constructed by the third `createROI` variant
(`useROIOperations.ts`, lines 287–317): no `selected` flag on the record;
selection is tracked through the `selectedROIs` id list instead. -/
structure ROI3 where
  id : ℕ
  name : String
  color : String
  coords : Coords
  intensityTrace : List ℚ
deriving DecidableEq, Repr

/-- Composable state for the third variant (`useROIState` plus the local
`nextRoiId` of `useROIOperations`). -/
structure SessionState3 where
  availableROIs : List ROI3
  selectedROIs : List ℕ
  nextRoiId : ℕ
deriving DecidableEq, Repr

/-- `createROI` from `useROIOperations.ts` (third variant, lines 287–317):
increments the counter, on backend success pushes the new record and adds
its id to `selectedROIs` when not already present. -/
def createROI3 (s : SessionState3) (coords : Coords) (backend : Option (List ℚ)) :
    SessionState3 :=
  let s1 : SessionState3 := { s with nextRoiId := s.nextRoiId + 1 }
  match backend with
  | none => s1
  | some trace =>
    let newROI : ROI3 :=
      { id := s.nextRoiId
        name := "ROI " ++ toString s.nextRoiId
        color := roiColors.getD ((s.nextRoiId - 1) % roiColors.length) ""
        coords := coords
        intensityTrace := trace }
    let s2 : SessionState3 := { s1 with availableROIs := s1.availableROIs ++ [newROI] }
    if s2.selectedROIs.contains newROI.id then s2
    else { s2 with selectedROIs := s2.selectedROIs ++ [newROI.id] }

/-- C4: `createROI` assigns the next unused id and registers the new ROI as
selected by default.  First conjunct (first variant): in every reachable
session state, a successful `createROI` returns the ROI built by `mkROI`,
that ROI has `selected = true`, it is present in the registry afterwards,
and its id differs from every id assigned earlier in the session (so from
every id any prior ROI has held).  Second conjunct (third variant, where
selection is the `selectedROIs` list): after a successful `createROI` the
new id is in `selectedROIs` and a record carrying it is in the registry. -/
theorem createROI_fresh_id_selected :
    (∀ (ops : List SessionOp) (c : Coords) (res : BackendTrace),
      (createROI (runOps initialSession ops) c (some res)).2 =
        some (mkROI (runOps initialSession ops) c res) ∧
      (mkROI (runOps initialSession ops) c res).selected = true ∧
      mkROI (runOps initialSession ops) c res ∈
        (createROI (runOps initialSession ops) c (some res)).1.availableROIs ∧
      ∀ i ∈ assignedIds initialSession ops,
        (mkROI (runOps initialSession ops) c res).id ≠ i) ∧
    (∀ (s : SessionState3) (c : Coords) (trace : List ℚ),
      s.nextRoiId ∈ (createROI3 s c (some trace)).selectedROIs ∧
      ∃ r ∈ (createROI3 s c (some trace)).availableROIs, r.id = s.nextRoiId) := by
  constructor
  · intro ops c res
    refine ⟨createROI_some_snd _ c res, rfl, ?_, ?_⟩
    · rw [createROI_some_avail]; simp
    · intro i hi
      have := assignedIds_upper_bound ops initialSession i hi
      simp only [mkROI]
      omega
  · intro s c trace
    constructor
    · simp only [createROI3]
      split <;> rename_i hmem <;> simp_all
    · refine ⟨ROI3.mk s.nextRoiId ("ROI " ++ toString s.nextRoiId)
        (roiColors.getD ((s.nextRoiId - 1) % roiColors.length) "") c trace, ?_, rfl⟩
      simp only [createROI3]
      split <;> simp

/-- Witness for C4 at a concrete session: after the three-creation scenario
the next ROI's id is not 1 (an already-assigned id), it is selected, and in
the third variant creating in state `⟨[], [], 3⟩` selects id 3. -/
theorem createROI_fresh_id_selected_witness :
    (mkROI (runOps initialSession scenarioOps3) someCoords okTrace).selected = true ∧
    (mkROI (runOps initialSession scenarioOps3) someCoords okTrace).id ≠ 1 ∧
    (3 : ℕ) ∈ (createROI3 { availableROIs := [], selectedROIs := [], nextRoiId := 3 }
      someCoords (some [1])).selectedROIs :=
  ⟨(createROI_fresh_id_selected.1 scenarioOps3 someCoords okTrace).2.1,
   (createROI_fresh_id_selected.1 scenarioOps3 someCoords okTrace).2.2.2 1 (by decide),
   (createROI_fresh_id_selected.2
      { availableROIs := [], selectedROIs := [], nextRoiId := 3 } someCoords [1]).1⟩

/-- A detected ROI entry as returned by the backend `/api/auto-roi` call. -/
structure BackendROI where
  id : ℕ
  coords : Coords
  avg_intensity : List ℚ
deriving DecidableEq, Repr

/-- The `stats` object of the `/api/auto-roi` reply. -/
structure AutoROIStats where
  n_rois : ℕ
deriving DecidableEq, Repr

/-- The `/api/auto-roi` reply body. -/
structure AutoROIResult where
  rois : List BackendROI
  stats : AutoROIStats
deriving DecidableEq, Repr

/-- Composable state for the second `useROIOperations.ts` variant (no
separate `selectedROIs` list). -/
structure SessionState2 where
  availableROIs : List ROI
  nextRoiId : ℕ
deriving DecidableEq, Repr

/-- The ROI record built for one detected region inside `runAutoROI`
(second variant, lines 216–227): backend-supplied id, name from that id,
color cycling on the list position, `selected := true`, trace from the
backend, and time points `i / 30` assuming 30 fps. -/
def autoROIEntry (index : ℕ) (roi : BackendROI) : ROI :=
  { id := roi.id
    name := "Auto ROI " ++ toString (roi.id + 1)
    color := roiColors.getD (index % roiColors.length) ""
    coords := roi.coords
    selected := true
    intensityTrace := roi.avg_intensity
    timePoints := (List.range roi.avg_intensity.length).map (fun i => (i : ℚ) / 30) }

/-- `runAutoROI` from `useROIOperations.ts` (second variant, lines 196–239):
on backend success the registry is cleared wholesale and repopulated with
the detected ROIs; the counter is untouched; the new list is returned. -/
def runAutoROI (s : SessionState2) (result : AutoROIResult) : SessionState2 × List ROI :=
  let newROIs : List ROI := result.rois.enum.map (fun p => autoROIEntry p.1 p.2)
  ({ availableROIs := newROIs, nextRoiId := s.nextRoiId }, newROIs)

/-- C9: after a successful `runAutoROI`, the registry holds exactly the
ROIs built from the detector reply — independent of the previous registry
and of the `nextRoiId` counter — each with the backend-supplied id, with
`selected = true`, and with time points `i / 30` for `i = 0 .. length-1`
regardless of the video's actual fps. -/
theorem runAutoROI_replaces_registry :
    ∀ (s : SessionState2) (result : AutoROIResult),
      (runAutoROI s result).1.availableROIs =
        result.rois.enum.map (fun p => autoROIEntry p.1 p.2) ∧
      (∀ s' : SessionState2, (runAutoROI s' result).1.availableROIs =
        (runAutoROI s result).1.availableROIs) ∧
      (runAutoROI s result).1.availableROIs.map ROI.id =
        result.rois.map BackendROI.id ∧
      (runAutoROI s result).1.nextRoiId = s.nextRoiId ∧
      ∀ r ∈ (runAutoROI s result).1.availableROIs,
        r.selected = true ∧
        r.timePoints = (List.range r.intensityTrace.length).map (fun i => (i : ℚ) / 30) := by
  intro s result
  refine ⟨rfl, fun s' => rfl, ?_, rfl, ?_⟩
  · show (result.rois.enum.map (fun p => autoROIEntry p.1 p.2)).map ROI.id =
      result.rois.map BackendROI.id
    rw [List.map_map]
    have hcomp : ROI.id ∘ (fun p : ℕ × BackendROI => autoROIEntry p.1 p.2) =
        BackendROI.id ∘ Prod.snd := rfl
    rw [hcomp, ← List.map_map, List.enum_map_snd]
  · intro r hr
    rcases List.mem_map.mp hr with ⟨p, hp, hpr⟩
    subst hpr
    exact ⟨rfl, rfl⟩

/-- Witness for C9 on a one-region reply: the produced entry is selected
and its time points are `[0, 1/30]`. -/
theorem runAutoROI_replaces_registry_witness :
    (autoROIEntry 0 { id := 7, coords := someCoords, avg_intensity := [5, 6] }).selected
      = true ∧
    (autoROIEntry 0 { id := 7, coords := someCoords, avg_intensity := [5, 6] }).timePoints
      = (List.range (autoROIEntry 0
          { id := 7, coords := someCoords, avg_intensity := [5, 6] }).intensityTrace.length).map
        (fun i => (i : ℚ) / 30) :=
  (runAutoROI_replaces_registry { availableROIs := [], nextRoiId := 4 }
    { rois := [{ id := 7, coords := someCoords, avg_intensity := [5, 6] }],
      stats := { n_rois := 1 } }).2.2.2.2
    (autoROIEntry 0 { id := 7, coords := someCoords, avg_intensity := [5, 6] })
    (by exact List.mem_singleton_self _)

/-- Mouse-drag state at mouse-up time: the drag start `(x0, y0)` and the
current pointer position `(x1, y1)`, as held in `currentDrawing`
(`VideoDisplay.vue` / `VideoCanvas.vue`). -/
structure DrawingState where
  x0 : ℚ
  y0 : ℚ
  x1 : ℚ
  y1 : ℚ
deriving DecidableEq, Repr

/-- `handleMouseUp` from `VideoDisplay.vue` (lines 294–325) and
`VideoCanvas.vue` (lines 75–106), identical in both: normalize the drag
endpoints with min/max, discard the drawing when the resulting width or
height is below 10 pixels (no creation request), otherwise issue the
ROI-creation request with the normalized coordinates. -/
def handleMouseUp (d : DrawingState) : Option Coords :=
  let c : Coords :=
    { x0 := min d.x0 d.x1, y0 := min d.y0 d.y1, x1 := max d.x0 d.x1, y1 := max d.y0 d.y1 }
  let width := c.x1 - c.x0
  let height := c.y1 - c.y0
  if width < 10 ∨ height < 10 then none else some c

/-- C10: every ROI-creation request issued from a mouse-drawn rectangle has
normalized coordinates (`x0 ≤ x1`, `y0 ≤ y1`, the min/max of the drag
endpoints) with width and height at least 10; and a drawn rectangle whose
width or height is below 10 pixels never issues a request. -/
theorem drawn_roi_normalized_min_size :
    (∀ (d : DrawingState) (c : Coords), handleMouseUp d = some c →
      c.x0 ≤ c.x1 ∧ c.y0 ≤ c.y1 ∧ 10 ≤ c.x1 - c.x0 ∧ 10 ≤ c.y1 - c.y0) ∧
    (∀ d : DrawingState,
      (max d.x0 d.x1 - min d.x0 d.x1 < 10 ∨ max d.y0 d.y1 - min d.y0 d.y1 < 10) →
      handleMouseUp d = none) := by
  constructor
  · intro d c h
    simp only [handleMouseUp] at h
    split at h
    · exact absurd h (by simp)
    · rename_i hcond
      push_neg at hcond
      cases h
      exact ⟨min_le_max, min_le_max, hcond.1, hcond.2⟩
  · intro d h
    simp only [handleMouseUp]
    rw [if_pos h]

/-- Witness for C10: a 20×15 drag yields a normalized request, a 5-wide
drag yields none. -/
theorem drawn_roi_normalized_min_size_witness :
    ((Coords.mk 0 0 20 15).x0 ≤ (Coords.mk 0 0 20 15).x1 ∧
     (Coords.mk 0 0 20 15).y0 ≤ (Coords.mk 0 0 20 15).y1 ∧
     10 ≤ (Coords.mk 0 0 20 15).x1 - (Coords.mk 0 0 20 15).x0 ∧
     10 ≤ (Coords.mk 0 0 20 15).y1 - (Coords.mk 0 0 20 15).y0) ∧
    handleMouseUp (DrawingState.mk 0 50 5 0) = none :=
  ⟨drawn_roi_normalized_min_size.1 (DrawingState.mk 0 0 20 15)
      (Coords.mk 0 0 20 15) (by norm_num [handleMouseUp, min_def, max_def]),
   drawn_roi_normalized_min_size.2 (DrawingState.mk 0 50 5 0)
      (by norm_num [min_def, max_def])⟩

/-! ### Backend analysis core, modelled from the spec

The Python `ca2roi` package (BleachingModel, FluctuationMap,
AutoROIDetector, ROITraceExtractor) is referenced by the README and the
frontend's HTTP calls but its code is not in the verified source tree; the
following definitions are modelled from the spec (§3, §4.1–§4.4). -/

/-- The bleaching model kinds (spec §3). -/
inductive FitKind where
  | exponential
  | inverse
deriving DecidableEq, Repr

/-- Modelled from the spec: `BleachingFit` (§3) — kind, parameters `(a, b)`,
R² (null when SS_tot ≈ 0), and the fit's time points.  The `ca2roi`
bleaching module is not in the source tree. -/
structure BleachingFit where
  kind : FitKind
  a : ℚ
  b : ℚ
  r2 : Option ℚ
  timePoints : List ℚ
deriving DecidableEq, Repr

/-- Mean of a list of rationals (0 for the empty list). -/
def listMean (l : List ℚ) : ℚ := l.sum / l.length

/-- Modelled from the spec: `ROITraceExtractor.correct` (§4.4) — if `adjust`
is false or no fit is available, return `raw` unchanged; otherwise
ratio-normalize against the fitted curve evaluated at each time point and
rescale to preserve the original mean.  The curve evaluator is a parameter
because the exponential decay curve is transcendental; the identity branches
do not consult it. -/
def correct (evalCurve : BleachingFit → ℚ → ℚ) (raw : List ℚ)
    (fit : Option BleachingFit) (adjust : Bool) : List ℚ :=
  match adjust, fit with
  | false, _ => raw
  | true, none => raw
  | true, some f =>
    let normalized := List.zipWith (fun x t => x / evalCurve f t) raw f.timePoints
    let scale := listMean raw / listMean normalized
    normalized.map (fun x => x * scale)

/-- C5: `correct(raw, fit, false) = raw` exactly for every raw trace and
every (possibly absent) fit, and `correct(raw, none, adjust) = raw` exactly
for every adjust flag: the trace is returned unchanged whenever `adjust` is
false or no fit is available. -/
theorem correct_identity_when_disabled :
    ∀ (evalCurve : BleachingFit → ℚ → ℚ) (raw : List ℚ),
      (∀ fit : Option BleachingFit, correct evalCurve raw fit false = raw) ∧
      (∀ adjust : Bool, correct evalCurve raw none adjust = raw) := by
  intro evalCurve raw
  constructor
  · intro fit; cases fit <;> rfl
  · intro adjust; cases adjust <;> rfl

/-- Modelled from the spec: the effective smoothing decay of
`ROITraceExtractor.smooth` (§4.4) — exponential smoothing whose weight on
the running history is `alpha` itself (`alpha = 0` none, `alpha = 1`
maximal). -/
def smoothDecay (alpha : ℚ) : ℚ := alpha

/-- One-pass exponential smoothing recursion: each output is
`decay * previous + (1 - decay) * current`. -/
def smoothAux (decay : ℚ) (prev : ℚ) : List ℚ → List ℚ
  | [] => []
  | x :: xs =>
    let y := decay * prev + (1 - decay) * x
    y :: smoothAux decay y xs

/-- Modelled from the spec: `ROITraceExtractor.smooth` (§4.4) — exponential
smoothing seeded at the first sample, with decay `smoothDecay alpha`. -/
def smooth (trace : List ℚ) (alpha : ℚ) : List ℚ :=
  match trace with
  | [] => []
  | x :: xs => x :: smoothAux (smoothDecay alpha) x xs

theorem smoothAux_zero (prev : ℚ) (xs : List ℚ) : smoothAux 0 prev xs = xs := by
  induction xs generalizing prev with
  | nil => rfl
  | cons x rest ih => simp [smoothAux, ih]

/-- C6: `smooth(trace, 0) = trace` exactly for every trace (alpha = 0 is
the identity), and the effective smoothing decay is monotonically
increasing in alpha over `[0, 1]`. -/
theorem smooth_zero_identity_decay_monotone :
    (∀ trace : List ℚ, smooth trace 0 = trace) ∧
    (∀ a b : ℚ, 0 ≤ a → a ≤ b → b ≤ 1 → smoothDecay a ≤ smoothDecay b) := by
  constructor
  · intro trace
    cases trace with
    | nil => rfl
    | cons x xs => simp [smooth, smoothDecay, smoothAux_zero]
  · intro a b _ hab _
    simpa [smoothDecay] using hab

/-- Witness for C6 at a concrete trace and concrete alphas. -/
theorem smooth_zero_identity_decay_monotone_witness :
    smooth [3, 7, 2] 0 = [3, 7, 2] ∧ smoothDecay (1/4) ≤ smoothDecay (1/2) :=
  ⟨smooth_zero_identity_decay_monotone.1 [3, 7, 2],
   smooth_zero_identity_decay_monotone.2 (1/4) (1/2)
     (by norm_num) (by norm_num) (by norm_num)⟩

/-- Result of `BleachingModel.fit` (spec §4.1): one optional slot per
candidate model. -/
structure FitResult where
  exponential : Option BleachingFit
  inverse : Option BleachingFit
deriving DecidableEq, Repr

/-- Number of distinct time points in the fitting input. -/
def distinctTimePoints (timePoints : List ℚ) : ℕ := timePoints.dedup.length

/-- Modelled from the spec: `BleachingModel.fit` (§4.1) — with fewer than 3
distinct time points the fit fails for both models and the result is empty;
otherwise the two candidate models are fit independently, each by its own
nonlinear-least-squares routine (`fitExp`, `fitInv`, parameters of the
model since the numeric routine is not in the source tree), a routine that
fails to converge returning `none` for its slot only. -/
def fit (fitExp fitInv : List ℚ → List ℚ → Option BleachingFit)
    (meanIntensity timePoints : List ℚ) : FitResult :=
  if distinctTimePoints timePoints < 3 then
    { exponential := none, inverse := none }
  else
    { exponential := fitExp meanIntensity timePoints
      inverse := fitInv meanIntensity timePoints }

/-- C7: with fewer than 3 distinct time points, `fit` fails for both models
and returns the empty result (both slots absent) rather than raising; and
one model's routine never affects the other model's slot (the slots are
computed independently), so failure to converge for one leaves the other
unaffected. -/
theorem fit_degenerate_empty_and_independent :
    (∀ (fitExp fitInv : List ℚ → List ℚ → Option BleachingFit)
       (meanIntensity timePoints : List ℚ),
      distinctTimePoints timePoints < 3 →
      (fit fitExp fitInv meanIntensity timePoints).exponential = none ∧
      (fit fitExp fitInv meanIntensity timePoints).inverse = none) ∧
    (∀ (fitExp fitExp' fitInv fitInv' : List ℚ → List ℚ → Option BleachingFit)
       (meanIntensity timePoints : List ℚ),
      (fit fitExp fitInv meanIntensity timePoints).inverse =
        (fit fitExp' fitInv meanIntensity timePoints).inverse ∧
      (fit fitExp fitInv meanIntensity timePoints).exponential =
        (fit fitExp fitInv' meanIntensity timePoints).exponential) := by
  constructor
  · intro fitExp fitInv meanIntensity timePoints h
    constructor <;> simp [fit, h]
  · intro fitExp fitExp' fitInv fitInv' meanIntensity timePoints
    constructor <;> simp only [fit] <;> split <;> rfl

/-- Witness for C7: two distinct time points (out of four samples) make
both slots empty even for routines that always succeed. -/
theorem fit_degenerate_empty_and_independent_witness :
    distinctTimePoints [0, 1, 0, 1] < 3 ∧
    (fit (fun _ _ => some (BleachingFit.mk .exponential 1 1 none []))
         (fun _ _ => some (BleachingFit.mk .inverse 1 1 none []))
         [5, 5, 5, 5] [0, 1, 0, 1]).exponential = none ∧
    (fit (fun _ _ => some (BleachingFit.mk .exponential 1 1 none []))
         (fun _ _ => some (BleachingFit.mk .inverse 1 1 none []))
         [5, 5, 5, 5] [0, 1, 0, 1]).inverse = none := by
  have h : distinctTimePoints [0, 1, 0, 1] < 3 := by decide
  exact ⟨h, (fit_degenerate_empty_and_independent.1 _ _ [5, 5, 5, 5] [0, 1, 0, 1] h).1,
    (fit_degenerate_empty_and_independent.1 _ _ [5, 5, 5, 5] [0, 1, 0, 1] h).2⟩

/-- Modelled from the spec: per-pixel variance of a time series (mean of
squared deviations from the mean); `FluctuationMap` (§4.2). -/
def seriesVariance (series : List ℚ) : ℚ :=
  (series.map (fun x => (x - listMean series) ^ 2)).sum / series.length

/-- Modelled from the spec: the per-pixel variability statistic of
`FluctuationMap.compute` (§4.2) — a normalized variability statistic
(squared coefficient of variation, `variance / mean²`), with the degenerate
cases (zero variance, or zero mean whose division would not be finite)
assigned the minimum raw score 0. -/
def pixelScore (series : List ℚ) : ℚ :=
  if seriesVariance series = 0 ∨ listMean series = 0 then 0
  else seriesVariance series / (listMean series) ^ 2

/-- The largest raw score of the map (0 for an empty map). -/
def mapMax (pixels : List (List ℚ)) : ℚ :=
  (pixels.map pixelScore).foldr max 0

/-- Final score of one pixel: the raw score normalized to a common range by
dividing by the map maximum (guarded when the map is identically 0). -/
def scoreAt (pixels : List (List ℚ)) (series : List ℚ) : ℚ :=
  if mapMax pixels = 0 then pixelScore series else pixelScore series / mapMax pixels

/-- Modelled from the spec: `FluctuationMap.compute` (§4.2) — one score per
pixel, same order as the input. -/
def computeMap (pixels : List (List ℚ)) : List ℚ :=
  pixels.map (scoreAt pixels)

theorem seriesVariance_nonneg (series : List ℚ) : 0 ≤ seriesVariance series := by
  unfold seriesVariance
  apply div_nonneg
  · apply List.sum_nonneg
    intro x hx
    rcases List.mem_map.mp hx with ⟨y, _, hy⟩
    subst hy
    positivity
  · positivity

theorem pixelScore_nonneg (series : List ℚ) : 0 ≤ pixelScore series := by
  unfold pixelScore
  split
  · exact le_refl 0
  · exact div_nonneg (seriesVariance_nonneg series) (by positivity)

theorem mapMax_nonneg (pixels : List (List ℚ)) : 0 ≤ mapMax pixels := by
  unfold mapMax
  induction pixels with
  | nil => exact le_refl 0
  | cons p rest ih =>
    simp only [List.map_cons, List.foldr_cons]
    exact le_max_of_le_right ih

theorem scoreAt_nonneg (pixels : List (List ℚ)) (series : List ℚ) :
    0 ≤ scoreAt pixels series := by
  unfold scoreAt
  split
  · exact pixelScore_nonneg series
  · exact div_nonneg (pixelScore_nonneg series) (mapMax_nonneg pixels)

theorem scoreAt_zero_var (pixels : List (List ℚ)) (series : List ℚ)
    (h : seriesVariance series = 0) : scoreAt pixels series = 0 := by
  have hp : pixelScore series = 0 := by unfold pixelScore; rw [if_pos (Or.inl h)]
  unfold scoreAt
  split <;> simp [hp]

/-- C8: `FluctuationMap.compute` is a total function into the rationals
(its guarded divisions never produce an undefined value, the embedding of
"never NaN/Inf"), every produced score is nonnegative (finite and bounded
below), and every pixel whose time series has zero variance is assigned the
minimum score of the map: its score is 0 and 0 is a lower bound for every
score in the map. -/
theorem computeMap_zero_variance_min_score :
    ∀ (pixels : List (List ℚ)),
      (∀ s ∈ computeMap pixels, 0 ≤ s) ∧
      (∀ series ∈ pixels, seriesVariance series = 0 →
        scoreAt pixels series = 0 ∧ ∀ s ∈ computeMap pixels, scoreAt pixels series ≤ s) := by
  intro pixels
  constructor
  · intro s hs
    rcases List.mem_map.mp hs with ⟨series, _, hser⟩
    subst hser
    exact scoreAt_nonneg pixels series
  · intro series _ hvar
    refine ⟨scoreAt_zero_var pixels series hvar, ?_⟩
    intro s hs
    rw [scoreAt_zero_var pixels series hvar]
    rcases List.mem_map.mp hs with ⟨series2, _, hser⟩
    subst hser
    exact scoreAt_nonneg pixels series2

/-- Witness for C8 on a concrete two-pixel frame: the constant pixel
`[4, 4, 4]` has zero variance and receives score 0, the minimum of the
map. -/
theorem computeMap_zero_variance_min_score_witness :
    scoreAt [[4, 4, 4], [1, 2, 3]] [4, 4, 4] = 0 ∧
    scoreAt [[4, 4, 4], [1, 2, 3]] [4, 4, 4] ≤ scoreAt [[4, 4, 4], [1, 2, 3]] [1, 2, 3] :=
  ⟨((computeMap_zero_variance_min_score [[4, 4, 4], [1, 2, 3]]).2 [4, 4, 4]
      (List.mem_cons_self _ _) (by norm_num [seriesVariance, listMean])).1,
   ((computeMap_zero_variance_min_score [[4, 4, 4], [1, 2, 3]]).2 [4, 4, 4]
      (List.mem_cons_self _ _) (by norm_num [seriesVariance, listMean])).2
     (scoreAt [[4, 4, 4], [1, 2, 3]] [1, 2, 3]) (by simp [computeMap])⟩

/-- Modelled from the spec: the percentile cutoff of `AutoROIDetector`
(§4.3 step 1), computed over the whole map — the value at rank
`⌊p · n / 100⌋` (clamped into the list) of the ascending sort of all
scores; pixels with score ≥ this cutoff become candidates. -/
def percentileCutoff (values : List ℚ) (p : ℚ) : ℚ :=
  (values.mergeSort).getD
    ((⌊p * values.length / 100⌋).toNat.min (values.length - 1)) 0

/-- Number of pixels whose score passes the percentile threshold. -/
def candidateCount (values : List ℚ) (p : ℚ) : ℕ :=
  (values.filter (fun v => decide (percentileCutoff values p ≤ v))).length

theorem sorted_getD_mono {l : List ℚ} (hsort : l.Sorted (· ≤ ·)) {i j : ℕ}
    (hij : i ≤ j) (hj : j < l.length) : l.getD i 0 ≤ l.getD j 0 := by
  have hi : i < l.length := lt_of_le_of_lt hij hj
  have e1 : l.getD i 0 = l.get ⟨i, hi⟩ := by
    rw [List.getD_eq_getElem?_getD, List.getElem?_eq_getElem hi]; rfl
  have e2 : l.getD j 0 = l.get ⟨j, hj⟩ := by
    rw [List.getD_eq_getElem?_getD, List.getElem?_eq_getElem hj]; rfl
  rw [e1, e2]
  exact hsort.rel_get_of_le hij

theorem percentileCutoff_mono (values : List ℚ) {p1 p2 : ℚ} (h : p1 ≤ p2) :
    percentileCutoff values p1 ≤ percentileCutoff values p2 := by
  unfold percentileCutoff
  rcases Nat.eq_zero_or_pos values.length with h0 | h0
  · have hnil : values.mergeSort = [] :=
      List.eq_nil_of_length_eq_zero (by rw [List.length_mergeSort]; omega)
    simp [hnil]
  · have hlen : values.mergeSort.length = values.length :=
      List.length_mergeSort values
    have hsort : values.mergeSort.Sorted (· ≤ ·) := List.sorted_mergeSort' values
    have hidx : (⌊p1 * values.length / 100⌋).toNat.min (values.length - 1) ≤
        (⌊p2 * values.length / 100⌋).toNat.min (values.length - 1) := by
      have hfl : ⌊p1 * values.length / 100⌋ ≤ ⌊p2 * values.length / 100⌋ := by
        apply Int.floor_le_floor
        have hn : (0 : ℚ) ≤ values.length := by positivity
        have : p1 * values.length ≤ p2 * values.length :=
          mul_le_mul_of_nonneg_right h hn
        linarith
      exact min_le_min (Int.toNat_le_toNat hfl) (le_refl _)
    have hb2 : (⌊p2 * values.length / 100⌋).toNat.min (values.length - 1) <
        values.mergeSort.length := by
      rw [hlen]
      exact lt_of_le_of_lt (Nat.min_le_right _ _) (by omega)
    exact sorted_getD_mono hsort hidx hb2

/-- C3: for a fixed fluctuation map (and any fixed `minDistanceFraction`,
which the thresholding step does not consult), the candidate count is
antitone in the threshold percentile: `p1 ≤ p2` implies the count at `p2`
is at most the count at `p1`, where a pixel is a candidate iff its score is
≥ the percentile cutoff computed over the whole map. -/
theorem candidateCount_antitone :
    ∀ (map : List ℚ) (p1 p2 : ℚ), p1 ≤ p2 →
      candidateCount map p2 ≤ candidateCount map p1 := by
  intro map p1 p2 h
  unfold candidateCount
  rw [← List.countP_eq_length_filter, ← List.countP_eq_length_filter]
  apply List.countP_mono_left
  intro v _ hv
  have hc := percentileCutoff_mono map h
  simp only [decide_eq_true_eq] at hv ⊢
  exact le_trans hc hv

/-- Witness for C3 on a concrete map and percentile pair. -/
theorem candidateCount_antitone_witness :
    candidateCount [1, 2, 3, 4] 100 ≤ candidateCount [1, 2, 3, 4] 50 :=
  candidateCount_antitone [1, 2, 3, 4] 50 100 (by norm_num)

/-- A candidate ROI center in frame pixel space. -/
structure Center where
  x : ℚ
  y : ℚ
deriving DecidableEq, Repr

/-- Squared Euclidean distance between two centers. -/
def dist2 (p q : Center) : ℚ := (p.x - q.x) ^ 2 + (p.y - q.y) ^ 2

theorem dist2_comm (p q : Center) : dist2 p q = dist2 q p := by
  unfold dist2; ring

/-- One step of greedy non-maximum suppression: accept the next candidate
iff its (squared) Euclidean distance to every already-accepted center is at
least the (squared) minimum distance. -/
def nmsStep (minDist : ℚ) (acc : List Center) (p : Center) : List Center :=
  if acc.all (fun q => decide (minDist ^ 2 ≤ dist2 p q)) then acc ++ [p] else acc

/-- Modelled from the spec: the greedy non-maximum suppression of
`AutoROIDetector` (§4.3 step 2) — candidates are visited in ranking order
and accepted only when no already-accepted center is closer than the
minimum distance (compared through squares, which for nonnegative bounds is
the Euclidean comparison). -/
def nmsAccept (minDist : ℚ) (cands : List Center) : List Center :=
  cands.foldl (nmsStep minDist) []

/-- Modelled from the spec: `AutoROIDetector` steps 1–2 (§4.3) — threshold
the scored map at the percentile cutoff computed over the whole map, rank
the surviving pixels by descending score (stable, so lower pixel index wins
ties), and greedily suppress centers closer than
`minDistanceFraction × frameWidth` to an accepted center. -/
def detectCenters (map : List (Center × ℚ))
    (thresholdPercentile minDistanceFraction frameWidth : ℚ) : List Center :=
  let cutoff := percentileCutoff (map.map Prod.snd) thresholdPercentile
  let cands := map.filter (fun pv => decide (cutoff ≤ pv.2))
  let ranked := cands.mergeSort (fun a b => decide (b.2 ≤ a.2))
  nmsAccept (minDistanceFraction * frameWidth) (ranked.map Prod.fst)

theorem nmsAccept_pairwise (minDist : ℚ) (cands : List Center) :
    (nmsAccept minDist cands).Pairwise (fun p q => minDist ^ 2 ≤ dist2 p q) := by
  suffices h : ∀ acc : List Center,
      acc.Pairwise (fun p q => minDist ^ 2 ≤ dist2 p q) →
      (cands.foldl (nmsStep minDist) acc).Pairwise (fun p q => minDist ^ 2 ≤ dist2 p q) by
    exact h [] (List.Pairwise.nil)
  induction cands with
  | nil => intro acc hacc; exact hacc
  | cons p rest ih =>
    intro acc hacc
    simp only [List.foldl_cons]
    apply ih
    unfold nmsStep
    split
    · rename_i hall
      rw [List.pairwise_append]
      refine ⟨hacc, List.pairwise_singleton _ _, ?_⟩
      intro a ha b hb
      simp only [List.mem_singleton] at hb
      subst hb
      have h2 := List.all_eq_true.mp hall a ha
      rw [decide_eq_true_eq] at h2
      rw [dist2_comm]
      exact h2
    · exact hacc

/-- C2: in every output of the detector, any two distinct accepted centers
are at Euclidean distance at least `minDistanceFraction × frameWidth`
whenever that bound is nonzero (positive fraction, nonnegative width):
stated both through squares over ℚ and through the real square root. -/
theorem detectCenters_min_distance :
    ∀ (map : List (Center × ℚ)) (thr frac width : ℚ), 0 < frac → 0 ≤ width →
      ∀ p ∈ detectCenters map thr frac width, ∀ q ∈ detectCenters map thr frac width,
        p ≠ q →
        (frac * width) ^ 2 ≤ dist2 p q ∧
        ((frac * width : ℚ) : ℝ) ≤ Real.sqrt ((dist2 p q : ℚ) : ℝ) := by
  intro map thr frac width hfrac hwidth p hp q hq hpq
  have hpair := nmsAccept_pairwise (frac * width)
    ((map.filter (fun pv =>
        decide (percentileCutoff (map.map Prod.snd) thr ≤ pv.2))).mergeSort
      (fun a b => decide (b.2 ≤ a.2)) |>.map Prod.fst)
  have hsymm : Symmetric (fun p q : Center => (frac * width) ^ 2 ≤ dist2 p q) := by
    intro a b h
    rwa [dist2_comm]
  have hsq : (frac * width) ^ 2 ≤ dist2 p q :=
    hpair.forall hsymm hp hq hpq
  refine ⟨hsq, ?_⟩
  have h0 : (0 : ℝ) ≤ ((frac * width : ℚ) : ℝ) := by
    have : (0 : ℚ) ≤ frac * width := mul_nonneg (le_of_lt hfrac) hwidth
    exact_mod_cast this
  have hd0 : (0 : ℚ) ≤ dist2 p q := by unfold dist2; positivity
  rw [Real.le_sqrt h0 (by exact_mod_cast hd0)]
  exact_mod_cast hsq

/-- Witness for C2 on a concrete 1×3-pixel map: with cutoff at percentile 0
all three pixels are candidates, suppression with bound 2 accepts centers
at distance ≥ 2 apart. -/
theorem detectCenters_min_distance_witness :
    (((1 : ℚ) * 2) ^ 2 ≤ dist2 (Center.mk 0 0) (Center.mk 3 0)) ∧
    (((1 * 2 : ℚ) : ℝ) ≤ Real.sqrt ((dist2 (Center.mk 0 0) (Center.mk 3 0) : ℚ) : ℝ)) :=
  detectCenters_min_distance
    [(Center.mk 0 0, 5), (Center.mk 1 0, 4), (Center.mk 3 0, 3)] 0 1 2
    (by norm_num) (by norm_num)
    (Center.mk 0 0) (by norm_num [detectCenters, nmsAccept, nmsStep, percentileCutoff,
      List.mergeSort, dist2])
    (Center.mk 3 0) (by norm_num [detectCenters, nmsAccept, nmsStep, percentileCutoff,
      List.mergeSort, dist2])
    (by simp)
